import Mathlib

/-!
Verification of the ptar sharded tar+zstd archiver.

A shallow embedding of the compression worker machinery (src/compress.rs),
the decompression pipeline (src/decompress.rs) and the thread-offload
reader (src/thread_offload_reader.rs), together with theorems settling the
specification's claims about them.

Bytes are natural numbers, byte sequences are lists, OS paths are their
byte sequences.  Machine-integer overflow never matters here: the counters
involved (error counts, shard indices, byte counts) are far below 2^64 in
every scenario the claims quantify over, so Nat is used directly.
-/

namespace Ptar

/-- A byte. -/
abbrev Byte := Nat

/-- A byte sequence. -/
abbrev Bytes := List Byte

/-- An OS path, modelled as its byte sequence. -/
abbrev Path := List Byte

/-!
## ThreadOffloadReader (src/thread_offload_reader.rs)

OffloadThread::main repeatedly fills a buffer of capacity `buf_len`
(128 * 1024 in the source) by reading from the inner stream until the
buffer is full or the stream is exhausted, truncates the buffer to the
bytes actually read, and sends it over the bounded ready-channel; a round
that reads zero bytes terminates the thread without sending.  With a
deterministic inner stream, each round obtains `min cap remaining` bytes,
so the sent chunks are the successive `cap`-sized slices of the source.
-/

/-- The chunks produced by the offload worker's fill loop; `fuel` bounds
the number of rounds (with `1 ≤ cap`, `src.length` rounds suffice). -/
def chunksFuel (cap : Nat) : Nat → Bytes → List Bytes
  | 0, _ => []
  | _, [] => []
  | fuel + 1, src => src.take cap :: chunksFuel cap fuel (src.drop cap)

/-- The sequence of chunks OffloadThread::main sends for a given source. -/
def offloadChunks (cap : Nat) (src : Bytes) : List Bytes :=
  chunksFuel cap src.length src

/-- Outcome of one recv_timeout on the ready-channel, as observed by
ThreadOffloadReader::read. -/
inductive RecvOutcome
  | chunk (c : Bytes)
  | timeout
  | disconnected
deriving DecidableEq

/-- Result of one ThreadOffloadReader::read call: Ok(count) together with
the bytes copied into the caller's buffer, the timeout error, or a panic of
the source's assert(count > 0). -/
inductive ReadOutcome
  | ok (count : Nat) (data : Bytes)
  | timeoutError
  | panic
deriving DecidableEq

/-- The tail of ThreadOffloadReader::read once a non-empty chunk is held:
VecDeque's Read implementation copies `min bufLen c.length` bytes from the
front of the chunk; the source then asserts count > 0 (modelled as the
panic outcome when the assertion fails), and releases the chunk once it is
fully drained. -/
def torCopy (bufLen : Nat) (c : Bytes) (recvs : List RecvOutcome) :
    ReadOutcome × Option Bytes × List RecvOutcome :=
  let count := min bufLen c.length
  if count = 0 then (ReadOutcome.panic, some c, recvs)
  else
    let rest := c.drop count
    (ReadOutcome.ok count (c.take count),
     if rest = [] then none else some rest, recvs)

/-- ThreadOffloadReader::read when no chunk is held: block on the
ready-channel, whose successive outcomes are the `recvs` oracle.
Disconnection yields Ok(0) (clean end of stream), timeout yields the
timeout error, and a received chunk is held and drained; an empty received
chunk is released and the read retries, as in the source's recursive
self-call.  An exhausted oracle stands for a receive that never completes
and is reported as the timeout error. -/
def torReadCore (bufLen : Nat) :
    List RecvOutcome → ReadOutcome × Option Bytes × List RecvOutcome
  | [] => (ReadOutcome.timeoutError, none, [])
  | RecvOutcome.disconnected :: rs => (ReadOutcome.ok 0 [], none, rs)
  | RecvOutcome.timeout :: rs => (ReadOutcome.timeoutError, none, rs)
  | RecvOutcome.chunk c :: rs =>
    if c = [] then torReadCore bufLen rs else torCopy bufLen c rs

/-- ThreadOffloadReader::read: drain the held chunk if one is held (an
empty held chunk is released first, after which the read retries from the
ready-channel), otherwise receive from the ready-channel. -/
def torRead (bufLen : Nat) (curr : Option Bytes) (recvs : List RecvOutcome) :
    ReadOutcome × Option Bytes × List RecvOutcome :=
  match curr with
  | none => torReadCore bufLen recvs
  | some c => if c = [] then torReadCore bufLen recvs else torCopy bufLen c recvs

/-- Repeatedly calling read with a `bufLen`-sized destination buffer until
it reports zero bytes, an error or a panic, collecting the bytes returned;
`fuel` bounds the number of read calls. -/
def torReadAll (bufLen : Nat) : Nat → Option Bytes → List RecvOutcome → Bytes
  | 0, _, _ => []
  | fuel + 1, curr, recvs =>
    match torRead bufLen curr recvs with
    | (ReadOutcome.ok count data, curr2, recvs2) =>
      if count = 0 then [] else data ++ torReadAll bufLen fuel curr2 recvs2
    | _ => []

/-- The bytes still owed by a held chunk. -/
def optBytes : Option Bytes → Bytes
  | none => []
  | some c => c

/-- Total byte count of a chunk list. -/
def totalLen (cs : List Bytes) : Nat := (cs.map List.length).sum

theorem chunksFuel_join (cap : Nat) (hc : 1 ≤ cap) :
    ∀ (fuel : Nat) (src : Bytes), src.length ≤ fuel →
      (chunksFuel cap fuel src).flatten = src := by
  intro fuel
  induction fuel with
  | zero =>
    intro src h
    have : src = [] := List.eq_nil_of_length_eq_zero (Nat.le_zero.mp h)
    subst this
    rfl
  | succ fuel ih =>
    intro src h
    match src with
    | [] => rfl
    | x :: xs =>
      have hlen : ((x :: xs).drop cap).length ≤ fuel := by
        rw [List.length_drop]
        simp only [List.length_cons] at h ⊢
        omega
      simp only [chunksFuel, List.flatten_cons, ih _ hlen, List.take_append_drop]

theorem chunksFuel_mem (cap : Nat) (hc : 1 ≤ cap) :
    ∀ (fuel : Nat) (src : Bytes), ∀ c ∈ chunksFuel cap fuel src,
      c ≠ [] ∧ c.length ≤ cap := by
  intro fuel
  induction fuel with
  | zero => intro src c hmem; simp [chunksFuel] at hmem
  | succ fuel ih =>
    intro src c hmem
    match src with
    | [] => simp [chunksFuel] at hmem
    | x :: xs =>
      simp only [chunksFuel, List.mem_cons] at hmem
      rcases hmem with h | h
      · subst h
        constructor
        · simp [List.take_eq_nil_iff]
          omega
        · simp [List.length_take]
      · exact ih _ c h

/-- Claim C9: every chunk the offload worker sends over the ready-queue
contains at least one byte.  A fill round that obtains zero bytes
terminates the worker without sending (an empty source produces no chunks),
and a partially filled chunk is truncated to exactly the bytes actually
read, so each sent chunk is non-empty and at most the chunk capacity. -/
theorem offload_chunks_nonempty (cap : Nat) (src : Bytes) (hc : 1 ≤ cap) :
    offloadChunks cap [] = [] ∧
    ∀ c ∈ offloadChunks cap src, c ≠ [] ∧ c.length ≤ cap := by
  constructor
  · rfl
  · exact chunksFuel_mem cap hc src.length src

theorem offload_chunks_nonempty_witness :
    (1 : Nat) ≤ 3 ∧
    (offloadChunks 3 [] = [] ∧
     ∀ c ∈ offloadChunks 3 [1, 2, 3, 4], c ≠ [] ∧ c.length ≤ 3) :=
  ⟨by decide, offload_chunks_nonempty 3 [1, 2, 3, 4] (by decide)⟩

theorem torReadAll_chunks (bufLen : Nat) (hb : 1 ≤ bufLen) :
    ∀ (fuel : Nat) (curr : Option Bytes) (cs : List Bytes),
      (∀ c, curr = some c → c ≠ []) →
      (∀ c ∈ cs, c ≠ []) →
      (optBytes curr).length + totalLen cs + 1 ≤ fuel →
      torReadAll bufLen fuel curr
          (cs.map RecvOutcome.chunk ++ [RecvOutcome.disconnected])
        = optBytes curr ++ cs.flatten := by
  intro fuel
  induction fuel with
  | zero => intro curr cs _ _ hfuel; omega
  | succ fuel ih =>
    intro curr cs hcurr hcs hfuel
    match curr with
    | some c =>
      have hcne : c ≠ [] := hcurr c rfl
      have hclen : 1 ≤ c.length := by
        cases c with
        | nil => exact absurd rfl hcne
        | cons a as => simp
      have hcount : min bufLen c.length ≠ 0 := by omega
      simp only [torReadAll, torRead, if_neg hcne, torCopy, if_neg hcount,
                 optBytes]
      have hdrop : optBytes (if c.drop (min bufLen c.length) = [] then none
          else some (c.drop (min bufLen c.length)))
          = c.drop (min bufLen c.length) := by
        by_cases hd : c.drop (min bufLen c.length) = []
        · rw [if_pos hd, hd]; rfl
        · rw [if_neg hd]; rfl
      have hrec := ih (if c.drop (min bufLen c.length) = [] then none
          else some (c.drop (min bufLen c.length))) cs
        (by
          intro d hd
          by_cases hnil : c.drop (min bufLen c.length) = []
          · rw [if_pos hnil] at hd; exact absurd hd (by simp)
          · rw [if_neg hnil] at hd
            injection hd with hd
            subst hd
            exact hnil)
        hcs
        (by
          rw [hdrop, List.length_drop]
          simp only [optBytes, List.length_cons] at hfuel
          omega)
      rw [hrec, hdrop, ← List.append_assoc, List.take_append_drop]
    | none =>
      match cs with
      | [] =>
        simp [torReadAll, torRead, torReadCore, optBytes]
      | c :: rest =>
        have hcne : c ≠ [] := hcs c (List.mem_cons_self c rest)
        have hclen : 1 ≤ c.length := by
          cases c with
          | nil => exact absurd rfl hcne
          | cons a as => simp
        have hcount : min bufLen c.length ≠ 0 := by omega
        simp only [List.map_cons, List.cons_append, torReadAll, torRead,
                   torReadCore, if_neg hcne, torCopy, if_neg hcount,
                   List.append_eq]
        have hdrop : optBytes (if c.drop (min bufLen c.length) = [] then none
            else some (c.drop (min bufLen c.length)))
            = c.drop (min bufLen c.length) := by
          by_cases hd : c.drop (min bufLen c.length) = []
          · rw [if_pos hd, hd]; rfl
          · rw [if_neg hd]; rfl
        have hrec := ih (if c.drop (min bufLen c.length) = [] then none
            else some (c.drop (min bufLen c.length))) rest
          (by
            intro d hd
            by_cases hnil : c.drop (min bufLen c.length) = []
            · rw [if_pos hnil] at hd; exact absurd hd (by simp)
            · rw [if_neg hnil] at hd
              injection hd with hd
              subst hd
              exact hnil)
          (fun d hd => hcs d (List.mem_cons_of_mem c hd))
          (by
            rw [hdrop, List.length_drop]
            simp only [optBytes, totalLen, List.map_cons, List.sum_cons,
                       List.length_nil] at hfuel
            simp only [totalLen]
            omega)
        rw [hrec, hdrop]
        simp only [optBytes, List.flatten_cons, ← List.append_assoc,
                   List.take_append_drop, List.nil_append]

theorem totalLen_eq_join_length (cs : List Bytes) :
    totalLen cs = cs.flatten.length := by
  induction cs with
  | nil => rfl
  | cons c rest ih => simp [totalLen, List.flatten_cons, List.length_append, ih]

/-- Claim C5: reading a ThreadOffloadReader to exhaustion yields exactly
the byte sequence of the wrapped source, in the same order, for every
source and every positive chunk capacity and destination-buffer size; in
particular for sources of length 0, 1, cap - 1, cap, cap + 1 and
5 * cap. -/
theorem tor_roundtrip (cap bufLen : Nat) (src : Bytes)
    (hc : 1 ≤ cap) (hb : 1 ≤ bufLen) :
    torReadAll bufLen (src.length + 1) none
        ((offloadChunks cap src).map RecvOutcome.chunk
          ++ [RecvOutcome.disconnected])
      = src := by
  have hjoin := chunksFuel_join cap hc src.length src (Nat.le_refl _)
  have htot : totalLen (offloadChunks cap src) = src.length := by
    rw [totalLen_eq_join_length, offloadChunks, hjoin]
  have := torReadAll_chunks bufLen hb (src.length + 1) none
    (offloadChunks cap src)
    (by intro c h; exact absurd h (by simp))
    (fun c hmem => (chunksFuel_mem cap hc src.length src c hmem).1)
    (by simp [optBytes, htot])
  rw [this]
  simpa [optBytes] using hjoin

theorem tor_roundtrip_witness :
    (1 : Nat) ≤ 2 ∧ (1 : Nat) ≤ 3 ∧
    torReadAll 3 ((1 :: 2 :: 3 :: 4 :: 5 :: []).length + 1) none
        ((offloadChunks 2 (1 :: 2 :: 3 :: 4 :: 5 :: [])).map RecvOutcome.chunk
          ++ [RecvOutcome.disconnected])
      = 1 :: 2 :: 3 :: 4 :: 5 :: [] :=
  ⟨by decide, by decide,
   tor_roundtrip 2 3 (1 :: 2 :: 3 :: 4 :: 5 :: []) (by decide) (by decide)⟩

/-- Claim C7: a ThreadOffloadReader::read call made while no chunk is held
returns Ok with zero bytes (clean end of stream) when the ready-queue is
disconnected because the offload worker terminated, and fails with the
timeout error when the configured timeout elapses while the worker is still
alive. -/
theorem tor_read_disconnected_and_timeout (bufLen : Nat)
    (rs : List RecvOutcome) :
    torRead bufLen none (RecvOutcome.disconnected :: rs)
        = (ReadOutcome.ok 0 [], none, rs) ∧
    torRead bufLen none (RecvOutcome.timeout :: rs)
        = (ReadOutcome.timeoutError, none, rs) :=
  ⟨rfl, rfl⟩

/-- Claim C10 fails as stated: a read call with a zero-length destination
buffer while the non-empty chunk [5] is held copies zero bytes out of the
chunk, so the source's assert(count > 0) fails, i.e. the call panics. -/
theorem tor_read_zero_buffer_panics :
    (torRead 0 (some (5 :: [])) []).1 = ReadOutcome.panic := by decide

theorem torCopy_no_panic (bufLen : Nat) (c : Bytes) (recvs : List RecvOutcome)
    (hb : 1 ≤ bufLen) (hcne : c ≠ []) :
    (torCopy bufLen c recvs).1 ≠ ReadOutcome.panic := by
  have hclen : 1 ≤ c.length := by
    cases c with
    | nil => exact absurd rfl hcne
    | cons a as => simp
  have hcount : min bufLen c.length ≠ 0 := by omega
  simp only [torCopy, if_neg hcount]
  intro h
  exact ReadOutcome.noConfusion h

theorem torReadCore_no_panic (bufLen : Nat) (hb : 1 ≤ bufLen) :
    ∀ recvs : List RecvOutcome,
      (torReadCore bufLen recvs).1 ≠ ReadOutcome.panic := by
  intro recvs
  induction recvs with
  | nil => intro h; exact ReadOutcome.noConfusion h
  | cons r rs ih =>
    match r with
    | RecvOutcome.disconnected => intro h; exact ReadOutcome.noConfusion h
    | RecvOutcome.timeout => intro h; exact ReadOutcome.noConfusion h
    | RecvOutcome.chunk c =>
      by_cases hc : c = []
      · simpa [torReadCore, if_pos hc] using ih
      · simpa [torReadCore, if_neg hc] using
          torCopy_no_panic bufLen c rs hb hc

/-- Claim C10, amended: every ThreadOffloadReader::read call made with a
non-empty destination buffer returns a result (Ok or Err) without
panicking, whatever chunk is held and whatever the ready-queue delivers;
with a zero-length destination buffer and a non-empty held chunk the
internal assertion count > 0 fails instead. -/
theorem tor_read_no_panic (bufLen : Nat) (curr : Option Bytes)
    (recvs : List RecvOutcome) (hb : 1 ≤ bufLen) :
    (torRead bufLen curr recvs).1 ≠ ReadOutcome.panic := by
  match curr with
  | none => exact torReadCore_no_panic bufLen hb recvs
  | some c =>
    by_cases hc : c = []
    · simpa [torRead, if_pos hc] using torReadCore_no_panic bufLen hb recvs
    · simpa [torRead, if_neg hc] using torCopy_no_panic bufLen c recvs hb hc

theorem tor_read_no_panic_witness :
    (1 : Nat) ≤ 1 ∧ (torRead 1 (some (7 :: [])) []).1 ≠ ReadOutcome.panic :=
  ⟨by decide, tor_read_no_panic 1 (some (7 :: [])) [] (by decide)⟩

/-!
## Shard naming (src/compress.rs, format of out_file_path)

`format!("{archive_num:08}.tar.zstd")` writes the decimal digits of the
archive number, left-padded with zeros to at least eight characters,
followed by the literal suffix ".tar.zstd".
-/

/-- The ASCII codes of the decimal digits of `n`, most significant first
(empty for 0); `fuel` bounds the number of divisions, `n` itself always
suffices. -/
def decDigitsFuel : Nat → Nat → List Byte
  | 0, _ => []
  | _ + 1, 0 => []
  | fuel + 1, n => decDigitsFuel fuel (n / 10) ++ [n % 10 + 48]

/-- The ASCII codes of the decimal digits of `n`, most significant first. -/
def decCodes (n : Nat) : List Byte := decDigitsFuel n n

/-- The byte sequence of the literal suffix ".tar.zstd". -/
def shardSuffix : Path := [46, 116, 97, 114, 46, 122, 115, 116, 100]

/-- The shard file name for archive number `n`. -/
def shardName (n : Nat) : Path :=
  (List.replicate (8 - (decCodes n).length) 48 ++ decCodes n) ++ shardSuffix

/-- The value encoded by a big-endian decimal digit string. -/
def decodeDecimal (l : List Byte) : Nat :=
  l.foldl (fun acc d => acc * 10 + (d - 48)) 0

theorem decodeDecimal_append_digit (l : List Byte) (d : Byte) :
    decodeDecimal (l ++ [d]) = decodeDecimal l * 10 + (d - 48) := by
  simp [decodeDecimal, List.foldl_append]

theorem decodeDecimal_decDigitsFuel :
    ∀ (fuel n : Nat), n ≤ fuel → decodeDecimal (decDigitsFuel fuel n) = n := by
  intro fuel
  induction fuel with
  | zero => intro n h; interval_cases n; rfl
  | succ fuel ih =>
    intro n h
    match n with
    | 0 => rfl
    | m + 1 =>
      have hdiv : (m + 1) / 10 ≤ fuel := by omega
      show decodeDecimal (decDigitsFuel fuel ((m + 1) / 10) ++ [(m + 1) % 10 + 48]) = m + 1
      rw [decodeDecimal_append_digit, ih _ hdiv]
      have := Nat.div_add_mod (m + 1) 10
      omega

theorem decodeDecimal_decCodes (n : Nat) : decodeDecimal (decCodes n) = n :=
  decodeDecimal_decDigitsFuel n n (Nat.le_refl n)

theorem decodeDecimal_pad (k : Nat) (l : List Byte) :
    decodeDecimal (List.replicate k 48 ++ l) = decodeDecimal l := by
  induction k with
  | zero => rfl
  | succ k ih =>
    show decodeDecimal (48 :: (List.replicate k 48 ++ l)) = decodeDecimal l
    simp only [decodeDecimal, List.foldl_cons] at ih ⊢
    simpa using ih

theorem shardName_inj (m n : Nat) (h : shardName m = shardName n) : m = n := by
  have hpads := (List.append_inj' h rfl).1
  have hdec := congrArg decodeDecimal hpads
  rw [decodeDecimal_pad, decodeDecimal_pad, decodeDecimal_decCodes,
      decodeDecimal_decCodes] at hdec
  exact hdec

/-!
## Compression workers (src/compress.rs)

PVB::build assigns the next archive number, forms the shard output path
and eagerly opens the output file with create_new (exclusive create),
wrapping it in the buffered writer, the zstd encoder and the tar builder;
on failure it logs, increments the shared error counter once, and returns
the error visitor.  PV::visit appends one delivered entry; PV::drop
finishes the codec chain and fsyncs, leaving the encoded archive of the
appended entries as the file's content.

The output directory is an association list from file path to content;
the tar+zstd codec pair is consumed as an opaque invertible stream
transform and modelled by the concrete length-prefixed serialization
`encodeShard`/`decodeShard` of the appended (relative path, content)
entries.
-/

/-- A directory of files: an association list from path to content. -/
abbrev FileMap := List (Path × Bytes)

/-- The serialization of one appended entry. -/
def encodeEntry (e : Path × Bytes) : Bytes :=
  e.1.length :: (e.1 ++ (e.2.length :: e.2))

/-- The on-disk content of a finalized shard holding the given entries. -/
def encodeShard (es : FileMap) : Bytes := (es.map encodeEntry).flatten

/-- Deserialization of a shard (tar+zstd decode and unpack enumeration);
`fuel` bounds the number of entries, the byte length always suffices. -/
def decodeShardFuel : Nat → Bytes → FileMap
  | 0, _ => []
  | _ + 1, [] => []
  | fuel + 1, lenP :: rest =>
    let p := rest.take lenP
    match rest.drop lenP with
    | [] => []
    | lenC :: rest3 =>
      (p, rest3.take lenC) :: decodeShardFuel fuel (rest3.drop lenC)

/-- Deserialization of a shard. -/
def decodeShard (b : Bytes) : FileMap := decodeShardFuel b.length b

theorem take_len_append (a b : List Nat) : (a ++ b).take a.length = a := by
  induction a with
  | nil => rfl
  | cons x xs ih => simpa [List.take_succ_cons] using ih

theorem drop_len_append (a b : List Nat) : (a ++ b).drop a.length = b := by
  induction a with
  | nil => rfl
  | cons x xs ih => simpa [List.drop_succ_cons] using ih

theorem decodeShardFuel_encodeShard :
    ∀ (es : FileMap) (fuel : Nat), (encodeShard es).length ≤ fuel →
      decodeShardFuel fuel (encodeShard es) = es := by
  intro es
  induction es with
  | nil =>
    intro fuel _
    match fuel with
    | 0 => rfl
    | _ + 1 => rfl
  | cons e tl ih =>
    intro fuel hfuel
    have hshape : encodeShard (e :: tl)
        = e.1.length :: (e.1 ++ (e.2.length :: (e.2 ++ encodeShard tl))) := by
      simp [encodeShard, encodeEntry, List.flatten_cons]
    have hlen : 2 + e.1.length + e.2.length + (encodeShard tl).length ≤ fuel := by
      have := congrArg List.length hshape
      simp only [List.length_cons, List.length_append] at this
      omega
    match fuel with
    | 0 => omega
    | f + 1 =>
      rw [hshape]
      simp only [decodeShardFuel]
      rw [show ((e.1 ++ (e.2.length :: (e.2 ++ encodeShard tl))).take e.1.length)
            = e.1 from take_len_append _ _,
          show ((e.1 ++ (e.2.length :: (e.2 ++ encodeShard tl))).drop e.1.length)
            = e.2.length :: (e.2 ++ encodeShard tl) from drop_len_append _ _]
      show ((e.1, (e.2 ++ encodeShard tl).take e.2.length)
            :: decodeShardFuel f ((e.2 ++ encodeShard tl).drop e.2.length))
          = e :: tl
      rw [show ((e.2 ++ encodeShard tl).take e.2.length) = e.2 from
            take_len_append _ _,
          show ((e.2 ++ encodeShard tl).drop e.2.length) = encodeShard tl from
            drop_len_append _ _]
      rw [ih f (by omega), Prod.mk.eta]

theorem decodeShard_encodeShard (es : FileMap) :
    decodeShard (encodeShard es) = es :=
  decodeShardFuel_encodeShard es (encodeShard es).length (Nat.le_refl _)

/-- The state threaded through PVB::build calls: the next archive number,
the shared error counter, and the output directory. -/
structure CState where
  nextNum : Nat
  errorCount : Nat
  outFS : FileMap
deriving DecidableEq

/-- A parallel visitor: the error visitor built when shard creation
failed, or a live visitor (PV) owning its shard: archive number, input
path-prefix, output path and the entries appended so far. -/
inductive Visitor
  | errorPV
  | pv (archiveNum : Nat) (pre : Path) (outPath : Path) (entries : FileMap)
deriving DecidableEq

/-- PVB::build: assign the archive number, form the shard path, and
exclusive-create the output file; if the path already exists, creation
fails, the error counter is incremented once and the error visitor is
returned; otherwise the (empty) file is created and a live visitor is
returned. -/
def build (pre : Path) (st : CState) : Visitor × CState :=
  let outPath := shardName st.nextNum
  if (List.lookup outPath st.outFS).isSome then
    (Visitor.errorPV,
     { nextNum := st.nextNum + 1, errorCount := st.errorCount + 1,
       outFS := st.outFS })
  else
    (Visitor.pv st.nextNum pre outPath [],
     { nextNum := st.nextNum + 1, errorCount := st.errorCount,
       outFS := (outPath, []) :: st.outFS })

/-- One entry delivered by the parallel traversal to a visitor: an error
result, an entry without a file type, a non-file entry, or a regular file
with its path and content; `appendFails` is the environment's verdict on
the append_path_with_name call (I/O can fail). -/
inductive VisitEntry
  | errEntry
  | noType
  | nonFile (p : Path)
  | file (p : Path) (content : Bytes) (appendFails : Bool)
deriving DecidableEq

/-- ignore::WalkState as returned by visit. -/
inductive WalkSt
  | cont
  | quit
deriving DecidableEq

/-- Path::strip_prefix, at the byte level: succeeds iff `pre` is an
initial segment of `p`, returning the remainder. -/
def stripPre (pre p : Path) : Option Path :=
  if p.take pre.length = pre then some (p.drop pre.length) else none

/-- PV::visit / ErrorPV::visit: the error visitor quits immediately; a
live visitor counts a delivered error and continues, skips entries without
a file type and non-files, and for a regular file strips the input prefix
(on failure: count the error, quit) and appends the file to its tar
builder (on failure: count the error, quit). -/
def visit (v : Visitor) (e : VisitEntry) (errCount : Nat) :
    Visitor × Nat × WalkSt :=
  match v with
  | Visitor.errorPV => (Visitor.errorPV, errCount, WalkSt.quit)
  | Visitor.pv n pre outPath es =>
    match e with
    | VisitEntry.errEntry =>
      (Visitor.pv n pre outPath es, errCount + 1, WalkSt.cont)
    | VisitEntry.noType => (Visitor.pv n pre outPath es, errCount, WalkSt.cont)
    | VisitEntry.nonFile _ =>
      (Visitor.pv n pre outPath es, errCount, WalkSt.cont)
    | VisitEntry.file p c fails =>
      match stripPre pre p with
      | none => (Visitor.pv n pre outPath es, errCount + 1, WalkSt.quit)
      | some rel =>
        if fails then (Visitor.pv n pre outPath es, errCount + 1, WalkSt.quit)
        else (Visitor.pv n pre outPath (es ++ [(rel, c)]), errCount,
              WalkSt.cont)

/-- Feeding a visitor its sequence of delivered entries; the traversal
stops delivering once the visitor returns quit. -/
def runVisits : Visitor → Nat → List VisitEntry → Visitor × Nat
  | v, ec, [] => (v, ec)
  | v, ec, e :: rest =>
    match visit v e ec with
    | (v2, ec2, WalkSt.quit) => (v2, ec2)
    | (v2, ec2, WalkSt.cont) => runVisits v2 ec2 rest

/-- PV::drop: finish the tar builder, the zstd encoder and the buffered
writer, then fsync, leaving the encoded archive of the appended entries as
the shard file's content (the success path; ErrorPV has no drop
behaviour). -/
def dropVisitor (v : Visitor) (fs : FileMap) : FileMap :=
  match v with
  | Visitor.errorPV => fs
  | Visitor.pv _ _ outPath es =>
    fs.map (fun kv => if kv.1 = outPath then (outPath, encodeShard es) else kv)

/-- The lifecycle of one traversal worker: build its visitor, feed it its
entries, and drop it. -/
def runWorker (pre : Path) (st : CState) (entries : List VisitEntry) :
    CState :=
  let bres := build pre st
  let vres := runVisits bres.1 bres.2.errorCount entries
  { nextNum := bres.2.nextNum, errorCount := vres.2,
    outFS := dropVisitor vres.1 bres.2.outFS }

/-- All traversal workers, each fed its own entry sequence; the workers
run in parallel in the source but share only the atomic error counter and
write disjoint files, so their combined effect is their sequential
composition. -/
def runWorkers (pre : Path) : CState → List (List VisitEntry) → CState
  | st, [] => st
  | st, part :: rest => runWorkers pre (runWorker pre st part) rest

/-- compress::main with an empty output directory: one worker per entry
distribution slot. -/
def compressModel (pre : Path) (parts : List (List VisitEntry)) : CState :=
  runWorkers pre { nextNum := 0, errorCount := 0, outFS := [] } parts

/-- The entries a live visitor ends up having appended, as a function of
the entry sequence delivered to it alone. -/
def visitedEntries (pre : Path) : List VisitEntry → FileMap
  | [] => []
  | e :: rest =>
    match e with
    | VisitEntry.errEntry => visitedEntries pre rest
    | VisitEntry.noType => visitedEntries pre rest
    | VisitEntry.nonFile _ => visitedEntries pre rest
    | VisitEntry.file p c fails =>
      match stripPre pre p with
      | none => []
      | some rel =>
        if fails then [] else (rel, c) :: visitedEntries pre rest

theorem runVisits_pv (pre outPath : Path) (n : Nat) :
    ∀ (entries : List VisitEntry) (es : FileMap) (ec : Nat),
      (runVisits (Visitor.pv n pre outPath es) ec entries).1
        = Visitor.pv n pre outPath (es ++ visitedEntries pre entries) := by
  intro entries
  induction entries with
  | nil => intro es ec; simp [runVisits, visitedEntries]
  | cons e rest ih =>
    intro es ec
    match e with
    | VisitEntry.errEntry =>
      simp only [runVisits, visit, visitedEntries]
      exact ih es (ec + 1)
    | VisitEntry.noType =>
      simp only [runVisits, visit, visitedEntries]
      exact ih es ec
    | VisitEntry.nonFile p =>
      simp only [runVisits, visit, visitedEntries]
      exact ih es ec
    | VisitEntry.file p c fails =>
      match hstrip : stripPre pre p with
      | none => simp [runVisits, visit, hstrip, visitedEntries]
      | some rel =>
        by_cases hf : fails = true
        · subst hf
          simp [runVisits, visit, hstrip, visitedEntries]
        · have hf : fails = false := by
            cases fails with
            | true => exact absurd rfl hf
            | false => rfl
          subst hf
          simpa [runVisits, visit, hstrip, visitedEntries] using
            ih (es ++ [(rel, c)]) ec

/-- Claim C2 fails as stated: a compression worker that receives zero
files still produces an output shard file on disk, because PVB::build
creates the file eagerly (create_new happens in build, before any entry is
visited) and PV::drop always finalizes the archive.  Concretely, a worker
built on an empty output directory and fed no entries leaves the file
00000000.tar.zstd (holding an empty archive) in the directory. -/
theorem compress_zero_files_creates_file :
    (List.lookup (shardName 0)
        (runWorker [] { nextNum := 0, errorCount := 0, outFS := [] } []).outFS).isSome
      = true := by decide

/-- Claim C2, amended: the shard's output file is created eagerly when the
worker's visitor is built, not lazily on the first appended entry, and
drop always finalizes the archive; a worker that received zero files
therefore produces an output shard file containing an empty archive. -/
theorem shard_file_created_eagerly (pre : Path) (st : CState)
    (h : List.lookup (shardName st.nextNum) st.outFS = none) :
    List.lookup (shardName st.nextNum) (runWorker pre st []).outFS
      = some (encodeShard []) := by
  have hbuild : build pre st
      = (Visitor.pv st.nextNum pre (shardName st.nextNum) [],
         { nextNum := st.nextNum + 1, errorCount := st.errorCount,
           outFS := (shardName st.nextNum, []) :: st.outFS }) := by
    simp [build, h]
  simp only [runWorker, hbuild, runVisits, dropVisitor, List.map_cons]
  simp [List.lookup]

theorem shard_file_created_eagerly_witness :
    List.lookup (shardName 0) (([] : FileMap)) = none ∧
    List.lookup (shardName 0)
        (runWorker [] { nextNum := 0, errorCount := 0, outFS := [] } []).outFS
      = some (encodeShard []) :=
  ⟨by decide,
   shard_file_created_eagerly []
     { nextNum := 0, errorCount := 0, outFS := [] } (by decide)⟩

/-- Claim C6: if the shard's output path already exists when PVB::build
runs, creation fails (create_new), the error counter is incremented
exactly once, the output directory is left entirely unchanged (so the
pre-existing file is neither overwritten nor truncated), and the error
visitor discards every subsequent entry without further increments while
quitting the traversal. -/
theorem shard_create_exclusive (pre : Path) (st : CState)
    (h : (List.lookup (shardName st.nextNum) st.outFS).isSome = true) :
    (build pre st).1 = Visitor.errorPV ∧
    (build pre st).2.errorCount = st.errorCount + 1 ∧
    (build pre st).2.outFS = st.outFS ∧
    ∀ (e : VisitEntry) (ec : Nat),
      visit Visitor.errorPV e ec = (Visitor.errorPV, ec, WalkSt.quit) := by
  refine ⟨?_, ?_, ?_, ?_⟩
  · simp [build, h]
  · simp [build, h]
  · simp [build, h]
  · intro e ec; rfl

theorem shard_create_exclusive_witness :
    (build []
        { nextNum := 0, errorCount := 0, outFS := [(shardName 0, [1])] }).1
      = Visitor.errorPV ∧
    (build []
        { nextNum := 0, errorCount := 0, outFS := [(shardName 0, [1])] }).2.errorCount
      = 1 ∧
    (build []
        { nextNum := 0, errorCount := 0, outFS := [(shardName 0, [1])] }).2.outFS
      = [(shardName 0, [1])] ∧
    visit Visitor.errorPV VisitEntry.noType 5 = (Visitor.errorPV, 5, WalkSt.quit) := by
  obtain ⟨h1, h2, h3, h4⟩ := shard_create_exclusive []
    { nextNum := 0, errorCount := 0, outFS := [(shardName 0, [1])] }
    (by decide)
  exact ⟨h1, h2, h3, h4 VisitEntry.noType 5⟩

/-!
## Composition of workers

The workers run in parallel in the source but share only the atomic error
counter and write pairwise distinct files (PVB::build is invoked with
exclusive access to the builder, so archive numbers are distinct).  The
final directory contents are characterised here as a function of each
worker's own entry sequence.
-/

/-- The output directory after a run of workers starting at archive number
`n` over an initial directory `fs`. -/
def shardsRev (pre : Path) : Nat → List (List VisitEntry) → FileMap → FileMap
  | _, [], fs => fs
  | n, part :: rest, fs =>
    shardsRev pre (n + 1) rest
      ((shardName n, encodeShard (visitedEntries pre part)) :: fs)

theorem lookup_cons_self (k : Path) (v : Bytes) (fs : FileMap) :
    List.lookup k ((k, v) :: fs) = some v := by
  simp [List.lookup]

theorem lookup_cons_ne (k k2 : Path) (v : Bytes) (fs : FileMap)
    (h : k ≠ k2) : List.lookup k ((k2, v) :: fs) = List.lookup k fs := by
  simp [List.lookup, beq_false_of_ne h]

theorem lookup_none_keys (k : Path) :
    ∀ (fs : FileMap), List.lookup k fs = none → ∀ kv ∈ fs, kv.1 ≠ k := by
  intro fs
  induction fs with
  | nil => intro _ kv h; simp at h
  | cons e rest ih =>
    intro hnone kv hmem
    obtain ⟨k1, v1⟩ := e
    by_cases hk : k = k1
    · subst hk
      rw [lookup_cons_self] at hnone
      exact absurd hnone (by simp)
    · rw [lookup_cons_ne _ _ _ _ hk] at hnone
      rcases List.mem_cons.mp hmem with h | h
      · subst h
        simpa using fun hEq => hk hEq.symm
      · exact ih hnone kv h

theorem dropVisitor_pv (n : Nat) (pre outPath : Path) (es fs : FileMap)
    (hkeys : ∀ kv ∈ fs, kv.1 ≠ outPath) :
    dropVisitor (Visitor.pv n pre outPath es) ((outPath, []) :: fs)
      = (outPath, encodeShard es) :: fs := by
  show ((fun kv => if kv.1 = outPath then (outPath, encodeShard es) else kv)
        ((outPath, []) : Path × Bytes))
      :: fs.map (fun kv => if kv.1 = outPath then (outPath, encodeShard es) else kv)
      = (outPath, encodeShard es) :: fs
  rw [show ((fun kv => if kv.1 = outPath then (outPath, encodeShard es) else kv)
        ((outPath, []) : Path × Bytes)) = (outPath, encodeShard es) from by simp]
  rw [show fs.map (fun kv => if kv.1 = outPath then (outPath, encodeShard es) else kv)
        = fs.map id from
      List.map_congr_left (by intro kv hkv; simp [hkeys kv hkv]),
    List.map_id]

theorem runWorker_outFS (pre : Path) (st : CState)
    (entries : List VisitEntry)
    (h : List.lookup (shardName st.nextNum) st.outFS = none) :
    (runWorker pre st entries).outFS
        = (shardName st.nextNum,
           encodeShard (visitedEntries pre entries)) :: st.outFS ∧
    (runWorker pre st entries).nextNum = st.nextNum + 1 := by
  have hbuild : build pre st
      = (Visitor.pv st.nextNum pre (shardName st.nextNum) [],
         { nextNum := st.nextNum + 1, errorCount := st.errorCount,
           outFS := (shardName st.nextNum, []) :: st.outFS }) := by
    simp [build, h]
  have hkeys := lookup_none_keys (shardName st.nextNum) st.outFS h
  constructor
  · simp only [runWorker, hbuild]
    rw [show (runVisits (Visitor.pv st.nextNum pre (shardName st.nextNum) [])
          st.errorCount entries).1
        = Visitor.pv st.nextNum pre (shardName st.nextNum)
            ([] ++ visitedEntries pre entries) from
      runVisits_pv pre (shardName st.nextNum) st.nextNum entries [] st.errorCount]
    simp only [List.nil_append]
    exact dropVisitor_pv st.nextNum pre (shardName st.nextNum)
      (visitedEntries pre entries) st.outFS hkeys
  · simp [runWorker, hbuild]

theorem runWorkers_outFS (pre : Path) :
    ∀ (parts : List (List VisitEntry)) (st : CState),
      (∀ i, st.nextNum ≤ i → List.lookup (shardName i) st.outFS = none) →
      (runWorkers pre st parts).outFS = shardsRev pre st.nextNum parts st.outFS := by
  intro parts
  induction parts with
  | nil => intro st _; rfl
  | cons part rest ih =>
    intro st hfresh
    obtain ⟨hfs, hnum⟩ := runWorker_outFS pre st part
      (hfresh st.nextNum (Nat.le_refl _))
    show (runWorkers pre (runWorker pre st part) rest).outFS = _
    rw [ih (runWorker pre st part) ?fresh2, hfs, hnum]
    · rfl
    case fresh2 =>
      intro i hi
      rw [hnum] at hi
      rw [hfs]
      rw [lookup_cons_ne _ _ _ _
        (fun hEq => by have := shardName_inj _ _ hEq; omega)]
      exact hfresh i (by omega)

theorem shardsRev_lookup_lt (pre : Path) :
    ∀ (parts : List (List VisitEntry)) (n : Nat) (fs : FileMap) (i : Nat),
      i < n →
      List.lookup (shardName i) (shardsRev pre n parts fs)
        = List.lookup (shardName i) fs := by
  intro parts
  induction parts with
  | nil => intro n fs i _; rfl
  | cons part rest ih =>
    intro n fs i hi
    show List.lookup _ (shardsRev pre (n + 1) rest _) = _
    rw [ih (n + 1) _ i (by omega)]
    exact lookup_cons_ne _ _ _ _
      (fun hEq => by have := shardName_inj _ _ hEq; omega)

theorem shardsRev_lookup_mem (pre : Path) :
    ∀ (parts : List (List VisitEntry)) (n : Nat) (fs : FileMap) (j : Nat)
      (hj : j < parts.length),
      List.lookup (shardName (n + j)) (shardsRev pre n parts fs)
        = some (encodeShard (visitedEntries pre (parts.get ⟨j, hj⟩))) := by
  intro parts
  induction parts with
  | nil => intro n fs j hj; simp at hj
  | cons part rest ih =>
    intro n fs j hj
    match j with
    | 0 =>
      show List.lookup (shardName (n + 0)) (shardsRev pre (n + 1) rest _) = _
      rw [shardsRev_lookup_lt pre rest (n + 1) _ (n + 0) (by omega)]
      simpa using lookup_cons_self _ _ _
    | j + 1 =>
      show List.lookup (shardName (n + (j + 1))) (shardsRev pre (n + 1) rest _)
          = _
      rw [show n + (j + 1) = (n + 1) + j by omega]
      exact ih (n + 1) _ j (by simpa using Nat.lt_of_succ_lt_succ hj)

/-- Claim C4: when a path-relativization (strip_prefix) error or an append
error occurs in one compression worker, the error counter is incremented
by one and only that worker's shard traversal terminates early (visit
returns quit with the visitor's appended entries unchanged); sibling
workers' shards are unaffected and continue to completion: each worker's
final shard file content is the encoded archive of the entries determined
by that worker's own delivered sequence alone, whatever is delivered to
the others. -/
theorem compress_errors_fail_fast_per_shard (pre p p2 rel : Path)
    (c c2 : Bytes) (n : Nat) (outPath : Path) (es : FileMap) (ec : Nat)
    (parts : List (List VisitEntry)) (j : Nat)
    (hstrip : stripPre pre p = none)
    (hstrip2 : stripPre pre p2 = some rel)
    (hj : j < parts.length) :
    visit (Visitor.pv n pre outPath es) (VisitEntry.file p c false) ec
        = (Visitor.pv n pre outPath es, ec + 1, WalkSt.quit) ∧
    visit (Visitor.pv n pre outPath es) (VisitEntry.file p2 c2 true) ec
        = (Visitor.pv n pre outPath es, ec + 1, WalkSt.quit) ∧
    List.lookup (shardName j) (compressModel pre parts).outFS
        = some (encodeShard (visitedEntries pre (parts.get ⟨j, hj⟩))) := by
  refine ⟨?_, ?_, ?_⟩
  · simp [visit, hstrip]
  · simp [visit, hstrip2]
  · have hrun := runWorkers_outFS pre parts
      { nextNum := 0, errorCount := 0, outFS := [] } (by intro i _; rfl)
    show List.lookup (shardName j) (runWorkers pre _ parts).outFS = _
    rw [hrun]
    have := shardsRev_lookup_mem pre parts 0 [] j hj
    simpa using this

theorem compress_errors_fail_fast_per_shard_witness :
    visit (Visitor.pv 0 [47] (shardName 0) []) (VisitEntry.file [48] [] false) 0
        = (Visitor.pv 0 [47] (shardName 0) [], 1, WalkSt.quit) ∧
    visit (Visitor.pv 0 [47] (shardName 0) [])
        (VisitEntry.file [47, 97] [1] true) 0
        = (Visitor.pv 0 [47] (shardName 0) [], 1, WalkSt.quit) ∧
    List.lookup (shardName 0)
        (compressModel [47] [[VisitEntry.file [47, 97] [1, 2] false]]).outFS
        = some (encodeShard (visitedEntries [47]
            [VisitEntry.file [47, 97] [1, 2] false])) := by
  obtain ⟨h1, h2, h3⟩ := compress_errors_fail_fast_per_shard
    [47] [48] [47, 97] [97] [] [1] 0 (shardName 0) [] 0
    [[VisitEntry.file [47, 97] [1, 2] false]] 0
    (by decide) (by decide) (by decide)
  exact ⟨h1, h2, h3⟩

/-!
## Decompression reader chain (src/decompress.rs, lines 57-87)

Each decompression task opens the archive file, wraps it in a
ProgressReader counting compressed bytes, wraps that in the zstd stream
decoder, wraps that in a second ProgressReader counting uncompressed
bytes, wraps that in a BufReader sized to zstd's recommended output
capacity, and hands the chain to tar::Archive::unpack.
-/

/-- The kinds of reader layers available in the program. -/
inductive ReaderLayer
  | rawFile
  | byteProgress
  | zstdDecoder
  | bufReader
  | threadOffload
deriving DecidableEq

/-- The reader chain built by each decompression task, innermost layer
first, as constructed in decompress::main. -/
def decompressReaderChain : List ReaderLayer :=
  [ReaderLayer.rawFile, ReaderLayer.byteProgress, ReaderLayer.zstdDecoder,
   ReaderLayer.byteProgress, ReaderLayer.bufReader]

/-- The reader chain asserted by the claim (its outermost layer is the
Offloaded Reader), stated from the claim's words for comparison. -/
def claimedReaderChain : List ReaderLayer :=
  [ReaderLayer.rawFile, ReaderLayer.byteProgress, ReaderLayer.zstdDecoder,
   ReaderLayer.byteProgress, ReaderLayer.threadOffload]

/-- Claim C3 fails as stated: the chain a decompression task builds does
not end in the Offloaded Reader. -/
theorem decompress_chain_not_as_claimed :
    decompressReaderChain ≠ claimedReaderChain := by decide

/-!
## Archive enumeration (src/decompress.rs, lines 24-48)

decompress::main reads the input directory, keeps the entries that are
regular files and whose file name matches the regex ".tar.zstd$" (the
dots are unescaped, so each matches any byte), sorts the resulting paths
(PathBuf's lexicographic byte order) and dispatches them one archive per
task.
-/

/-- Whether the regex ".tar.zstd$" matches the name: the name has at
least nine bytes and its last nine are any byte, then "tar", then any
byte, then "zstd". -/
def regexSuffixMatch (name : Path) : Bool :=
  if 9 ≤ name.length then
    match name.drop (name.length - 9) with
    | [_, c1, c2, c3, _, c5, c6, c7, c8] =>
      c1 == 116 && c2 == 97 && c3 == 114 && c5 == 122 && c6 == 115 &&
        c7 == 116 && c8 == 100
    | _ => false
  else false

/-- Lexicographic byte order on paths (PathBuf's Ord). -/
def pathLe : Path → Path → Bool
  | [], _ => true
  | _ :: _, [] => false
  | a :: as, b :: bs =>
    if a < b then true else if b < a then false else pathLe as bs

theorem pathLe_total : ∀ (a b : Path), pathLe a b = true ∨ pathLe b a = true := by
  intro a
  induction a with
  | nil => intro b; left; rfl
  | cons x xs ih =>
    intro b
    match b with
    | [] => right; rfl
    | y :: ys =>
      by_cases hxy : x < y
      · left; simp [pathLe, hxy]
      · by_cases hyx : y < x
        · right; simp [pathLe, hyx]
        · rcases ih ys with h | h
          · left; simp [pathLe, hxy, hyx, h]
          · right; simp [pathLe, hxy, hyx, h]

theorem pathLe_trans :
    ∀ (a b c : Path), pathLe a b = true → pathLe b c = true →
      pathLe a c = true := by
  intro a
  induction a with
  | nil => intro b c _ _; rfl
  | cons x xs ih =>
    intro b c hab hbc
    match b, c with
    | [], _ => simp [pathLe] at hab
    | _ :: _, [] => simp [pathLe] at hbc
    | y :: ys, z :: zs =>
      rcases Nat.lt_trichotomy x y with hxy | hxy | hxy
      · have hzy : ¬ z < y := by
          intro hzy
          have h1 : ¬ y < z := Nat.lt_asymm hzy
          simp [pathLe, h1, hzy] at hbc
        have hxz : x < z :=
          Nat.lt_of_lt_of_le hxy (Nat.le_of_not_lt hzy)
        simp [pathLe, hxz]
      · subst hxy
        have hab2 : pathLe xs ys = true := by
          simpa [pathLe, Nat.lt_irrefl] using hab
        rcases Nat.lt_trichotomy x z with hxz | hxz | hxz
        · simp [pathLe, hxz]
        · subst hxz
          have hbc2 : pathLe ys zs = true := by
            simpa [pathLe, Nat.lt_irrefl] using hbc
          simpa [pathLe, Nat.lt_irrefl] using ih ys zs hab2 hbc2
        · have h1 : ¬ x < z := Nat.lt_asymm hxz
          simp [pathLe, h1, hxz] at hbc
      · have h1 : ¬ x < y := Nat.lt_asymm hxy
        simp [pathLe, h1, hxy] at hab

instance pathLeTotal : IsTotal Path (fun a b => pathLe a b = true) :=
  ⟨pathLe_total⟩

instance pathLeTrans : IsTrans Path (fun a b => pathLe a b = true) :=
  ⟨fun a b c => pathLe_trans a b c⟩

/-- Vec::sort on paths: a stable sort by the lexicographic byte order. -/
def sortPaths (l : List Path) : List Path :=
  List.insertionSort (fun a b => pathLe a b = true) l

/-- One entry of the input directory as seen by read_dir: its file name,
whether it is a regular file, and (for regular files) its content. -/
structure DirEntry where
  name : Path
  isFile : Bool
  content : Bytes
deriving DecidableEq

/-- The enumeration loop of decompress::main: keep regular files whose
name matches the regex, then sort. -/
def enumArchives (dir : List DirEntry) : List Path :=
  sortPaths ((dir.filter (fun e => e.isFile && regexSuffixMatch e.name)).map
    (fun e => e.name))

/-- Reading a file of the input directory by name. -/
def dirLookup : List DirEntry → Path → Option Bytes
  | [], _ => none
  | e :: rest, p => if e.name = p then some e.content else dirLookup rest p

/-- tar unpack writing one file into the output directory: create the
file, or overwrite it if the path already exists. -/
def fsWrite : FileMap → Path → Bytes → FileMap
  | [], p, b => [(p, b)]
  | kv :: rest, p, b =>
    if kv.1 = p then (p, b) :: rest else kv :: fsWrite rest p b

/-- tar unpack of a decoded archive: write out its entries in order. -/
def unpackEntries (fs es : FileMap) : FileMap :=
  es.foldl (fun acc e => fsWrite acc e.1 e.2) fs

/-- decompress::main: enumerate the archives, then each task decodes its
archive and unpacks the entries into the output directory.  The tasks run
on a pool in the source and write disjoint paths in every scenario the
claims quantify over; the model composes them in enumeration order. -/
def decompressModel (dir : List DirEntry) : FileMap :=
  (enumArchives dir).foldl
    (fun out n => unpackEntries out (decodeShard ((dirLookup dir n).getD [])))
    []

theorem enumArchives_mem (dir : List DirEntry) (p : Path) :
    p ∈ enumArchives dir ↔
      ∃ e ∈ dir, e.isFile = true ∧ regexSuffixMatch e.name = true ∧
        e.name = p := by
  unfold enumArchives sortPaths
  rw [(List.perm_insertionSort (fun a b => pathLe a b = true) _).mem_iff]
  simp only [List.mem_map, List.mem_filter, Bool.and_eq_true]
  constructor
  · rintro ⟨e, ⟨hmem, hfile, hregex⟩, hname⟩
    exact ⟨e, hmem, hfile, hregex, hname⟩
  · rintro ⟨e, hmem, hfile, hregex, hname⟩
    exact ⟨e, ⟨hmem, hfile, hregex⟩, hname⟩

theorem enumArchives_sorted (dir : List DirEntry) :
    List.Sorted (fun a b => pathLe a b = true) (enumArchives dir) :=
  List.sorted_insertionSort (fun a b => pathLe a b = true) _

/-- The shard naming convention as claim C8 states it: an 8-digit
zero-padded decimal index followed by the literal suffix ".tar.zstd"
(stated from the claim's words, for comparison with the code's filter). -/
def specShardNameB (name : Path) : Bool :=
  name.length == 17 &&
  (name.take 8).all (fun d => 48 ≤ d && d ≤ 57) &&
  name.drop 8 == shardSuffix

/-- Claim C8 fails as stated: the file "a.tar.zstd" is a regular file
that the decompression entry point processes (the code's filter is the
regex ".tar.zstd$", whose dots are wildcards and which requires no
8-digit index), yet its name does not match the claimed shard naming
convention. -/
theorem decompress_processes_non_convention_name :
    enumArchives [⟨[97, 46, 116, 97, 114, 46, 122, 115, 116, 100], true, []⟩]
        = [[97, 46, 116, 97, 114, 46, 122, 115, 116, 100]] ∧
    specShardNameB [97, 46, 116, 97, 114, 46, 122, 115, 116, 100] = false := by
  decide

/-- Claim C8, amended: the decompression entry point processes exactly
those directory entries that are regular files whose names match the
regex ".tar.zstd$" — i.e. whose last nine bytes are any byte, "tar", any
byte, "zstd"; a strict superset of the 8-digit zero-padded shard naming
convention — and dispatches them in lexicographically sorted path
order. -/
theorem decompress_enumeration (dir : List DirEntry) :
    (∀ p, p ∈ enumArchives dir ↔
      ∃ e ∈ dir, e.isFile = true ∧ regexSuffixMatch e.name = true ∧
        e.name = p) ∧
    List.Sorted (fun a b => pathLe a b = true) (enumArchives dir) :=
  ⟨fun p => enumArchives_mem dir p, enumArchives_sorted dir⟩

/-!
## Round trip

The compress pipeline with well-behaved inputs: every delivered entry is
a regular file under the input prefix and no append fails; the content of
the output directory is then decompressed again.
-/

/-- The output directory viewed as read_dir entries (all regular files). -/
def fsToDir (fs : FileMap) : List DirEntry :=
  fs.map (fun kv => DirEntry.mk kv.1 true kv.2)

/-- The entry sequence a worker receives for a list of (relative path,
content) files under the input prefix, with no delivery or append
failures. -/
def goodVisits (pre : Path) (part : FileMap) : List VisitEntry :=
  part.map (fun rc => VisitEntry.file (pre ++ rc.1) rc.2 false)

theorem stripPre_append (pre rel : Path) :
    stripPre pre (pre ++ rel) = some rel := by
  unfold stripPre
  rw [take_len_append, drop_len_append]
  exact if_pos rfl

theorem visitedEntries_goodVisits (pre : Path) :
    ∀ (part : FileMap), visitedEntries pre (goodVisits pre part) = part := by
  intro part
  induction part with
  | nil => rfl
  | cons rc tl ih =>
    show visitedEntries pre
        (VisitEntry.file (pre ++ rc.1) rc.2 false :: goodVisits pre tl)
        = rc :: tl
    simp [visitedEntries, stripPre_append, ih]

theorem fsWrite_lookup (q p : Path) (b : Bytes) :
    ∀ (fs : FileMap),
      List.lookup q (fsWrite fs p b)
        = if q = p then some b else List.lookup q fs := by
  intro fs
  induction fs with
  | nil =>
    by_cases hq : q = p
    · subst hq; simp [fsWrite, lookup_cons_self]
    · show List.lookup q ((p, b) :: []) = _
      rw [lookup_cons_ne _ _ _ _ hq, if_neg hq]
  | cons kv rest ih =>
    obtain ⟨k1, v1⟩ := kv
    by_cases hk : k1 = p
    · have hfw : fsWrite ((k1, v1) :: rest) p b = (p, b) :: rest := by
        simp [fsWrite, hk]
      rw [hfw]
      by_cases hq : q = p
      · subst hq
        rw [lookup_cons_self, if_pos rfl]
      · have hq1 : q ≠ k1 := by rw [hk]; exact hq
        rw [lookup_cons_ne _ _ _ _ hq, if_neg hq,
            lookup_cons_ne _ _ _ _ hq1]
    · have hfw : fsWrite ((k1, v1) :: rest) p b
          = (k1, v1) :: fsWrite rest p b := by
        simp [fsWrite, hk]
      rw [hfw]
      by_cases hq : q = k1
      · rw [hq, lookup_cons_self, if_neg hk, lookup_cons_self]
      · rw [lookup_cons_ne _ _ _ _ hq, ih]
        by_cases hqp : q = p
        · rw [if_pos hqp, if_pos hqp]
        · rw [if_neg hqp, if_neg hqp, lookup_cons_ne _ _ _ _ hq]

theorem unpackEntries_lookup_not_mem (rel : Path) :
    ∀ (es fs : FileMap), rel ∉ es.map Prod.fst →
      List.lookup rel (unpackEntries fs es) = List.lookup rel fs := by
  intro es
  induction es with
  | nil => intro fs _; rfl
  | cons e tl ih =>
    intro fs hnot
    have hne : rel ≠ e.1 := by
      intro h
      exact hnot (by simp [h])
    have htl : rel ∉ tl.map Prod.fst := by
      intro h
      exact hnot (by simp [h])
    show List.lookup rel (unpackEntries (fsWrite fs e.1 e.2) tl) = _
    rw [ih _ htl, fsWrite_lookup, if_neg hne]

theorem unpackEntries_lookup_mem (rel : Path) (c : Bytes) :
    ∀ (es fs : FileMap), (rel, c) ∈ es → (es.map Prod.fst).Nodup →
      List.lookup rel (unpackEntries fs es) = some c := by
  intro es
  induction es with
  | nil => intro fs h _; simp at h
  | cons e tl ih =>
    intro fs hmem hnodup
    rw [List.map_cons] at hnodup
    rcases List.mem_cons.mp hmem with h | h
    · have hrel : e.1 = rel := by rw [← h]
      have hc : e.2 = c := by rw [← h]
      have hnot : rel ∉ tl.map Prod.fst := by
        rw [← hrel]
        exact (List.nodup_cons.mp hnodup).1
      show List.lookup rel (unpackEntries (fsWrite fs e.1 e.2) tl) = _
      rw [unpackEntries_lookup_not_mem rel tl _ hnot, hrel, hc,
          fsWrite_lookup, if_pos rfl]
    · have htl : (tl.map Prod.fst).Nodup := (List.nodup_cons.mp hnodup).2
      show List.lookup rel (unpackEntries (fsWrite fs e.1 e.2) tl) = _
      exact ih _ h htl

theorem dirLookup_fsToDir (p : Path) :
    ∀ (fs : FileMap), dirLookup (fsToDir fs) p = List.lookup p fs := by
  intro fs
  induction fs with
  | nil => rfl
  | cons kv rest ih =>
    obtain ⟨k1, v1⟩ := kv
    show (if k1 = p then some v1 else dirLookup (fsToDir rest) p) = _
    by_cases hk : k1 = p
    · subst hk
      rw [if_pos rfl, lookup_cons_self]
    · rw [if_neg hk, ih, lookup_cons_ne _ _ _ _ (fun h => hk h.symm)]

theorem lookup_some_mem (k : Path) (v : Bytes) :
    ∀ (fs : FileMap), List.lookup k fs = some v → (k, v) ∈ fs := by
  intro fs
  induction fs with
  | nil => intro h; simp at h
  | cons kv rest ih =>
    obtain ⟨k1, v1⟩ := kv
    intro h
    by_cases hk : k = k1
    · subst hk
      rw [lookup_cons_self] at h
      injection h with h
      subst h
      exact List.mem_cons_self _ _
    · rw [lookup_cons_ne _ _ _ _ hk] at h
      exact List.mem_cons_of_mem _ (ih h)

theorem regexSuffixMatch_append (a : Path) :
    regexSuffixMatch (a ++ shardSuffix) = true := by
  have hlen : (a ++ shardSuffix).length = a.length + 9 := by
    simp [shardSuffix, List.length_append]
  have heq : (a ++ shardSuffix).length - 9 = a.length := by omega
  unfold regexSuffixMatch
  rw [if_pos (by omega), heq, drop_len_append]
  rfl

theorem regexSuffixMatch_shardName (n : Nat) :
    regexSuffixMatch (shardName n) = true :=
  regexSuffixMatch_append _

theorem shardsRev_keys_sub (pre : Path) :
    ∀ (parts : List (List VisitEntry)) (n : Nat) (fs : FileMap) (p : Path),
      p ∈ (shardsRev pre n parts fs).map Prod.fst →
      (∃ j, j < parts.length ∧ p = shardName (n + j)) ∨
        p ∈ fs.map Prod.fst := by
  intro parts
  induction parts with
  | nil => intro n fs p h; exact Or.inr h
  | cons part rest ih =>
    intro n fs p h
    rcases ih (n + 1) _ p h with ⟨j, hj, hp⟩ | h2
    · exact Or.inl ⟨j + 1, by simpa using Nat.succ_lt_succ hj,
        by rw [hp]; congr 1; omega⟩
    · simp only [List.map_cons, List.mem_cons] at h2
      rcases h2 with h2 | h2
      · exact Or.inl ⟨0, by simp, by simpa using h2⟩
      · exact Or.inr h2

/-- The key facts extracted from a Nodup flattened key list: each part's
keys are Nodup, and keys of distinct parts are disjoint. -/
theorem nodup_flatten_facts (parts : List FileMap)
    (h : (parts.flatten.map Prod.fst).Nodup) :
    (∀ part ∈ parts, (part.map Prod.fst).Nodup) ∧
    List.Pairwise (fun l1 l2 => List.Disjoint (l1.map Prod.fst) (l2.map Prod.fst))
      parts := by
  rw [List.map_flatten, List.nodup_flatten] at h
  obtain ⟨h1, h2⟩ := h
  constructor
  · intro part hpart
    exact h1 _ (List.mem_map_of_mem _ hpart)
  · have := (List.pairwise_map).mp h2
    exact this

/-- The decoded entries a decompression task obtains for archive `m`. -/
def shardEntries (dir : List DirEntry) (m : Path) : FileMap :=
  decodeShard ((dirLookup dir m).getD [])

theorem foldUnpack_preserve (dir : List DirEntry) (rel : Path) :
    ∀ (names : List Path) (out : FileMap),
      (∀ m ∈ names, rel ∉ (shardEntries dir m).map Prod.fst) →
      List.lookup rel
        (names.foldl (fun out n => unpackEntries out (shardEntries dir n)) out)
        = List.lookup rel out := by
  intro names
  induction names with
  | nil => intro out _; rfl
  | cons m rest ih =>
    intro out hnot
    show List.lookup rel
        (rest.foldl _ (unpackEntries out (shardEntries dir m))) = _
    rw [ih _ (fun m2 hm2 => hnot m2 (List.mem_cons_of_mem _ hm2)),
        unpackEntries_lookup_not_mem rel _ _ (hnot m (List.mem_cons_self _ _))]

theorem foldUnpack_hit (dir : List DirEntry) (rel : Path) (c : Bytes) :
    ∀ (names : List Path) (out : FileMap),
      (∀ m ∈ names,
        ((rel, c) ∈ shardEntries dir m ∧
         ((shardEntries dir m).map Prod.fst).Nodup) ∨
        rel ∉ (shardEntries dir m).map Prod.fst) →
      (∃ m ∈ names, (rel, c) ∈ shardEntries dir m) →
      List.lookup rel
        (names.foldl (fun out n => unpackEntries out (shardEntries dir n)) out)
        = some c := by
  intro names
  induction names with
  | nil => intro out _ hex; simp at hex
  | cons m rest ih =>
    intro out hclass hex
    show List.lookup rel
        (rest.foldl _ (unpackEntries out (shardEntries dir m))) = _
    by_cases hrest : ∃ m2 ∈ rest, (rel, c) ∈ shardEntries dir m2
    · exact ih _ (fun m2 hm2 => hclass m2 (List.mem_cons_of_mem _ hm2)) hrest
    · have hm : (rel, c) ∈ shardEntries dir m := by
        rcases hex with ⟨m2, hm2, hmem⟩
        rcases List.mem_cons.mp hm2 with h | h
        · rw [← h]; exact hmem
        · exact absurd ⟨m2, h, hmem⟩ hrest
      have hmnodup : ((shardEntries dir m).map Prod.fst).Nodup := by
        rcases hclass m (List.mem_cons_self _ _) with ⟨_, hn⟩ | hn
        · exact hn
        · exact absurd (List.mem_map_of_mem Prod.fst hm) hn
      have hrestnot : ∀ m2 ∈ rest,
          rel ∉ (shardEntries dir m2).map Prod.fst := by
        intro m2 hm2
        rcases hclass m2 (List.mem_cons_of_mem _ hm2) with ⟨hmem2, _⟩ | hn
        · exact absurd ⟨m2, hm2, hmem2⟩ hrest
        · exact hn
      rw [foldUnpack_preserve dir rel rest _ hrestnot,
          unpackEntries_lookup_mem rel c _ _ hm hmnodup]

theorem compress_outFS (pre : Path) (parts : List FileMap) :
    (compressModel pre (parts.map (goodVisits pre))).outFS
      = shardsRev pre 0 (parts.map (goodVisits pre)) [] :=
  runWorkers_outFS pre _ _ (fun i _ => rfl)

theorem compress_lookup (pre : Path) (parts : List FileMap) (j : Nat)
    (hj : j < parts.length) :
    List.lookup (shardName j)
        (compressModel pre (parts.map (goodVisits pre))).outFS
      = some (encodeShard (parts.get ⟨j, hj⟩)) := by
  rw [compress_outFS]
  have hj2 : j < (parts.map (goodVisits pre)).length := by simpa using hj
  have hmem := shardsRev_lookup_mem pre (parts.map (goodVisits pre)) 0 [] j hj2
  rw [show (0 : Nat) + j = j from Nat.zero_add j] at hmem
  rw [hmem,
      show (parts.map (goodVisits pre)).get ⟨j, hj2⟩
          = goodVisits pre (parts.get ⟨j, hj⟩) from by
        simp [List.get_eq_getElem],
      visitedEntries_goodVisits]

theorem compress_keys (pre : Path) (parts : List FileMap) (p : Path)
    (h : p ∈ (compressModel pre (parts.map (goodVisits pre))).outFS.map
      Prod.fst) :
    ∃ j, j < parts.length ∧ p = shardName j := by
  rw [compress_outFS] at h
  rcases shardsRev_keys_sub pre _ 0 [] p h with ⟨j, hj, hp⟩ | h2
  · exact ⟨j, by simpa using hj, by simpa using hp⟩
  · simp at h2

theorem c1_names_mem (pre : Path) (parts : List FileMap) (m : Path) :
    m ∈ enumArchives
        (fsToDir (compressModel pre (parts.map (goodVisits pre))).outFS)
      ↔ ∃ j, j < parts.length ∧ m = shardName j := by
  rw [enumArchives_mem]
  constructor
  · rintro ⟨e, hmem, _, _, hname⟩
    rcases List.mem_map.mp hmem with ⟨kv, hkv, hkv2⟩
    have hk1 : kv.1 = m := by rw [← hname, ← hkv2]
    have hmem2 : m ∈ (compressModel pre
        (parts.map (goodVisits pre))).outFS.map Prod.fst := by
      rw [← hk1]
      exact List.mem_map_of_mem Prod.fst hkv
    exact compress_keys pre parts m hmem2
  · rintro ⟨j, hj, hm⟩
    have hkv : ((shardName j : Path), encodeShard (parts.get ⟨j, hj⟩))
        ∈ (compressModel pre (parts.map (goodVisits pre))).outFS :=
      lookup_some_mem _ _ _ (compress_lookup pre parts j hj)
    exact ⟨DirEntry.mk (shardName j) true (encodeShard (parts.get ⟨j, hj⟩)),
      List.mem_map_of_mem _ hkv, rfl, regexSuffixMatch_shardName j, hm.symm⟩

theorem c1_shardEntries (pre : Path) (parts : List FileMap) (j : Nat)
    (hj : j < parts.length) :
    shardEntries
        (fsToDir (compressModel pre (parts.map (goodVisits pre))).outFS)
        (shardName j)
      = parts.get ⟨j, hj⟩ := by
  unfold shardEntries
  rw [dirLookup_fsToDir, compress_lookup pre parts j hj]
  show decodeShard (encodeShard (parts.get ⟨j, hj⟩)) = _
  exact decodeShard_encodeShard _

/-- Claim C1: the round trip.  For every input prefix, every thread count
k ≥ 1 and every distribution of a directory tree's regular files across k
workers — the tree being the concatenation of the per-worker lists of
(relative path, content) files, with pairwise distinct relative paths —
compressing into an empty output directory and then decompressing the
resulting shard directory reproduces the tree byte-for-byte: the
decompressed output holds exactly the original content at every original
relative path, and nothing at any other path, independently of how the
files were distributed across the shards. -/
theorem compress_decompress_roundtrip (pre : Path)
    (parts : List FileMap) (k : Nat)
    (hk : 1 ≤ k) (hlen : parts.length = k)
    (hnodup : (parts.flatten.map Prod.fst).Nodup) :
    (∀ (rel : Path) (c : Bytes), (rel, c) ∈ parts.flatten →
      List.lookup rel
        (decompressModel
          (fsToDir (compressModel pre (parts.map (goodVisits pre))).outFS))
        = some c) ∧
    (∀ rel : Path, rel ∉ parts.flatten.map Prod.fst →
      List.lookup rel
        (decompressModel
          (fsToDir (compressModel pre (parts.map (goodVisits pre))).outFS))
        = none) := by
  obtain ⟨hnodupEach, hdisj⟩ := nodup_flatten_facts parts hnodup
  have hD : ∀ (a b : Fin parts.length), a < b →
      List.Disjoint ((parts.get a).map Prod.fst)
        ((parts.get b).map Prod.fst) :=
    fun a b hab => List.pairwise_iff_get.mp hdisj a b hab
  have hnames : ∀ m ∈ enumArchives
      (fsToDir (compressModel pre (parts.map (goodVisits pre))).outFS),
      ∃ j, j < parts.length ∧ m = shardName j :=
    fun m hm => (c1_names_mem pre parts m).mp hm
  have hfold : decompressModel
      (fsToDir (compressModel pre (parts.map (goodVisits pre))).outFS)
      = (enumArchives
          (fsToDir (compressModel pre (parts.map (goodVisits pre))).outFS)).foldl
          (fun out n => unpackEntries out (shardEntries
            (fsToDir (compressModel pre (parts.map (goodVisits pre))).outFS) n))
          [] := rfl
  constructor
  · intro rel c hmem
    rcases List.mem_flatten.mp hmem with ⟨part0, hpart0, hmem0⟩
    rcases List.mem_iff_get.mp hpart0 with ⟨⟨j, hj⟩, hget⟩
    have hrelj : rel ∈ (parts.get ⟨j, hj⟩).map Prod.fst := by
      rw [hget]
      exact List.mem_map_of_mem Prod.fst hmem0
    rw [hfold]
    apply foldUnpack_hit
    · intro m hm
      rcases hnames m hm with ⟨i, hi, hmi⟩
      rw [hmi, c1_shardEntries pre parts i hi]
      by_cases hij : i = j
      · left
        have hg2 : parts.get ⟨i, hi⟩ = part0 := by
          rw [show (⟨i, hi⟩ : Fin parts.length) = ⟨j, hj⟩ from
            Fin.ext hij, hget]
        constructor
        · rw [hg2]; exact hmem0
        · exact hnodupEach _ (List.get_mem parts i hi)
      · right
        intro hrelmem
        rcases Nat.lt_or_ge i j with hij2 | hij2
        · exact hD ⟨i, hi⟩ ⟨j, hj⟩ hij2 hrelmem hrelj
        · have hji : j < i := by omega
          exact hD ⟨j, hj⟩ ⟨i, hi⟩ hji hrelj hrelmem
    · refine ⟨shardName j, ?_, ?_⟩
      · exact (c1_names_mem pre parts (shardName j)).mpr ⟨j, hj, rfl⟩
      · rw [c1_shardEntries pre parts j hj, hget]
        exact hmem0
  · intro rel hnotmem
    rw [hfold, foldUnpack_preserve]
    · rfl
    · intro m hm
      rcases hnames m hm with ⟨i, hi, hmi⟩
      rw [hmi, c1_shardEntries pre parts i hi]
      intro hrelmem
      apply hnotmem
      rcases List.mem_map.mp hrelmem with ⟨rc, hrc, hrc2⟩
      rw [← hrc2]
      exact List.mem_map_of_mem Prod.fst
        (List.mem_flatten.mpr ⟨parts.get ⟨i, hi⟩, List.get_mem _ _ _, hrc⟩)

theorem compress_decompress_roundtrip_witness :
    List.lookup [97]
        (decompressModel (fsToDir
          (compressModel [] (([[([97], [1, 2])], [([98], [])]] :
            List FileMap).map (goodVisits []))).outFS))
        = some [1, 2] ∧
    List.lookup [99]
        (decompressModel (fsToDir
          (compressModel [] (([[([97], [1, 2])], [([98], [])]] :
            List FileMap).map (goodVisits []))).outFS))
        = none := by
  obtain ⟨h1, h2⟩ := compress_decompress_roundtrip []
    [[([97], [1, 2])], [([98], [])]] 2 (by decide) (by decide) (by decide)
  exact ⟨h1 [97] [1, 2] (by decide), h2 [99] (by decide)⟩

/-- Claim C3, amended: every decompression task builds its reader chain
as the raw file reader, wrapped by a byte-progress reader, wrapped by the
zstd decoder, wrapped by a second byte-progress reader, wrapped by a
BufReader (sized to the zstd decoder's recommended output capacity), and
the tar unpack operation consumes that chain; the Offloaded Reader
(ThreadOffloadReader) does not appear in the chain. -/
theorem decompress_chain_shape :
    decompressReaderChain
      = [ReaderLayer.rawFile, ReaderLayer.byteProgress,
         ReaderLayer.zstdDecoder, ReaderLayer.byteProgress,
         ReaderLayer.bufReader] ∧
    ReaderLayer.threadOffload ∉ decompressReaderChain := by decide

end Ptar
